import Mathlib

/-!
Shallow embedding of the core of the 3d_hex_game repository, together with
theorems settling the frozen claims about its specification.

Embedded components and their sources:
* `RoomManager` : src/server/RoomManager.js (server-authoritative room state store)
* `HexUtils`    : src/public/js/HexUtils.js (axial hex grid utilities)
* `NoiseGen`    : src/public/js/NoiseGenerator.js (seeded fractal noise)
* `HexGrid`     : client-side grid reconciler (updateHexState of the HexGrid class)

JavaScript dictionaries are modelled as functions into `Option`, JavaScript
numbers as `ℚ` (exact arithmetic; the spec-level statements are about real
semantics), timestamps from `Date.now()` as explicit `ℕ` parameters, and the
random source as an explicit parameter wherever the code consumes randomness.
-/

/-- Definition of a placed decorative object, the `voxelModel` attribute of a cell
(spec section 3; the object built in the client update path). -/
structure VoxelModel where
  type : String
  scale : ℚ
  rotation : ℚ × ℚ × ℚ
  animate : Bool
  hoverRange : ℚ
  hoverSpeed : ℚ
  rotateSpeed : ℚ
deriving DecidableEq

/-- Definition of the per-cell attribute object stored in `room.hexState` by
src/server/RoomManager.js.  The three delta-able attributes are optional
(absent until first set); `lastUpdated` is stamped by the server on every write. -/
structure Cell where
  color : Option String
  height : Option ℚ
  voxelModel : Option VoxelModel
  lastUpdated : ℕ
deriving DecidableEq

/-- Definition of an incoming cell-update delta (the `action` argument of
`updateHexState`): any subset of the three attributes may be present. -/
structure Delta where
  color : Option String := none
  height : Option ℚ := none
  voxelModel : Option VoxelModel := none
deriving DecidableEq

namespace RoomManager

/-- Definition of one room of the store: `rooms[roomCode]` in RoomManager.js,
built in `createRoom` as a record with host, users, hexState and createdAt. -/
structure Room where
  host : String
  users : List String
  hexState : String → Option Cell
  createdAt : ℕ

/-- Definition of the whole store state of the RoomManager class: the `rooms`
table (room codes to rooms) and the `userRooms` membership index (user ids to
the room codes they are in; an absent entry is modelled as the empty list). -/
structure Store where
  rooms : String → Option Room
  userRooms : String → List String

/-- Definition of the store state right after `new RoomManager()`. -/
def emptyStore : Store := ⟨fun _ => none, fun _ => []⟩

/-- Helper modelling assignment of one key of a JavaScript dictionary. -/
def updF {α : Type} (f : String → α) (k : String) (v : α) : String → α :=
  fun x => if x = k then v else f x

theorem updF_same {α : Type} (f : String → α) (k : String) (v : α) :
    updF f k v k = v := by
  simp [updF]

theorem updF_ne {α : Type} (f : String → α) (k : String) (v : α) {x : String}
    (h : x ≠ k) : updF f k v x = f x := by
  simp [updF, h]

theorem updF_updF_same {α : Type} (f : String → α) (k : String) (v w : α) :
    updF (updF f k v) k w = updF f k w := by
  funext x
  by_cases h : x = k <;> simp [updF, h]

/-- Embedding of the object spread in `updateHexState` of RoomManager.js, lines
61 to 65: the new cell is the shallow merge of the stored cell (spread first,
an absent cell spreading as the empty object) with the incoming action (spread
second, so a present field of the action wins wholesale), and `lastUpdated` is
stamped with the current time. -/
def mergeCell (old : Option Cell) (action : Delta) (now : ℕ) : Cell where
  color := match action.color with
    | some c => some c
    | none => old.bind Cell.color
  height := match action.height with
    | some h => some h
    | none => old.bind Cell.height
  voxelModel := match action.voxelModel with
    | some m => some m
    | none => old.bind Cell.voxelModel
  lastUpdated := now

/-- Embedding of `createRoom` of RoomManager.js.  The minted room code (the
value of `generateRoomCode()`) and the clock reading `Date.now()` are passed
explicitly; the method returns the room code. -/
def createRoom (s : Store) (userId roomCode : String) (now : ℕ) : String × Store :=
  (roomCode,
    { rooms := updF s.rooms roomCode
        (some { host := userId, users := [userId], hexState := fun _ => none,
                createdAt := now }),
      userRooms := updF s.userRooms userId (s.userRooms userId ++ [roomCode]) })

/-- Definition of the value returned by `joinRoom` of RoomManager.js: either a
success record carrying the full current cell map, or an error record. -/
inductive JoinResult where
  | ok (state : String → Option Cell)
  | err (error : String)

/-- Embedding of `joinRoom` of RoomManager.js: if the code is unknown the
store is untouched and an error record is returned; otherwise the user is
pushed onto the room member list and onto the membership index, and the
current cell map is returned. -/
def joinRoom (s : Store) (roomCode userId : String) : JoinResult × Store :=
  match s.rooms roomCode with
  | none => (.err "Room not found", s)
  | some room =>
    let room' : Room := { room with users := room.users ++ [userId] }
    (.ok room'.hexState,
      { rooms := updF s.rooms roomCode (some room'),
        userRooms := updF s.userRooms userId (s.userRooms userId ++ [roomCode]) })

/-- Embedding of `updateHexState` of RoomManager.js: returns false and leaves
the store unchanged when the room is missing, otherwise shallow-merges the
action into the addressed cell (any string key is accepted) and returns true. -/
def updateHexState (s : Store) (roomCode hexId : String) (action : Delta)
    (now : ℕ) : Bool × Store :=
  match s.rooms roomCode with
  | none => (false, s)
  | some room =>
    let cell := mergeCell (room.hexState hexId) action now
    let room' : Room := { room with hexState := updF room.hexState hexId (some cell) }
    (true, { s with rooms := updF s.rooms roomCode (some room') })

/-- Embedding of the loop body of `removeUserFromRooms` of RoomManager.js: for
one room code, if the room exists the user is filtered out of its member list,
the code is appended to the `roomsLeft` accumulator, and the room is deleted
when its member list became empty. -/
def removeStep (userId : String) (acc : List String × (String → Option Room))
    (roomCode : String) : List String × (String → Option Room) :=
  match acc.2 roomCode with
  | none => acc
  | some room =>
    let users := room.users.filter (fun id => id ≠ userId)
    if users = [] then
      (acc.1 ++ [roomCode], updF acc.2 roomCode none)
    else
      (acc.1 ++ [roomCode], updF acc.2 roomCode (some { room with users := users }))

/-- Embedding of `removeUserFromRooms` of RoomManager.js: fold the loop body
over the room codes of the user, then delete the user entry of the membership
index (an absent entry is already modelled as the empty list). -/
def removeUserFromRooms (s : Store) (userId : String) : List String × Store :=
  let res := (s.userRooms userId).foldl (removeStep userId) ([], s.rooms)
  (res.1, { rooms := res.2, userRooms := updF s.userRooms userId [] })

theorem mergeCell_stable (old : Option Cell) (d : Delta) (t1 t2 : ℕ) :
    mergeCell (some (mergeCell old d t1)) d t2 = mergeCell old d t2 := by
  unfold mergeCell
  cases hc : d.color <;> cases hh : d.height <;> cases hv : d.voxelModel <;> simp

/-- Helper sample room, cell and delta used by concrete instances below. -/
def demoRoom : Room :=
  { host := "u1", users := ["u1"], hexState := fun _ => none, createdAt := 0 }

/-- Helper sample store holding exactly the room "ROOM01" with member "u1". -/
def demoStore : Store := (createRoom emptyStore "u1" "ROOM01" 0).2

/-- Helper sample cell holding only the color "#00ff00". -/
def demoGreenCell : Cell :=
  { color := some "#00ff00", height := none, voxelModel := none, lastUpdated := 5 }

/-- Helper sample delta setting only the height field to 2. -/
def demoHeightDelta : Delta := { height := some 2 }

/-- Helper sample delta setting only the color field. -/
def demoDelta : Delta := { color := some "#ff0000" }

/-- C1: applying a cell-update delta to a room's cell performs a shallow merge:
every attribute present in the delta fully replaces the stored attribute (the
voxelModel object wholesale), every attribute absent from the delta is left
untouched, other cells of the room are untouched, and in particular applying a
height-2 delta to a cell holding color "#00ff00" yields a cell with color
"#00ff00" and height 2. -/
theorem updateHexState_shallow_merge (s : Store) (roomCode hexId : String)
    (room : Room) (d : Delta) (now : ℕ) (h : s.rooms roomCode = some room) :
    (∃ room',
      (updateHexState s roomCode hexId d now).2.rooms roomCode = some room' ∧
      room'.hexState hexId = some (mergeCell (room.hexState hexId) d now) ∧
      (∀ h2, h2 ≠ hexId → room'.hexState h2 = room.hexState h2) ∧
      (∀ c, d.color = some c → (mergeCell (room.hexState hexId) d now).color = some c) ∧
      (d.color = none →
        (mergeCell (room.hexState hexId) d now).color = (room.hexState hexId).bind Cell.color) ∧
      (∀ v, d.height = some v → (mergeCell (room.hexState hexId) d now).height = some v) ∧
      (d.height = none →
        (mergeCell (room.hexState hexId) d now).height = (room.hexState hexId).bind Cell.height) ∧
      (∀ m, d.voxelModel = some m →
        (mergeCell (room.hexState hexId) d now).voxelModel = some m) ∧
      (d.voxelModel = none →
        (mergeCell (room.hexState hexId) d now).voxelModel =
          (room.hexState hexId).bind Cell.voxelModel)) ∧
    ((mergeCell (some demoGreenCell) demoHeightDelta 7).color = some "#00ff00" ∧
      (mergeCell (some demoGreenCell) demoHeightDelta 7).height = some 2 ∧
      (mergeCell (some demoGreenCell) demoHeightDelta 7).voxelModel = none) := by
  refine ⟨⟨{ room with hexState := updF room.hexState hexId (some (mergeCell (room.hexState hexId) d now)) }, ?_, updF_same _ _ _,
      fun h2 hne => updF_ne _ _ _ hne, ?_, ?_, ?_, ?_, ?_, ?_⟩, by simp [mergeCell, demoGreenCell, demoHeightDelta]⟩
  · simp [updateHexState, h, updF_same]
  all_goals intros
  all_goals simp_all [mergeCell]

/-- C1 witness at a concrete store, room and delta. -/
theorem updateHexState_shallow_merge_witness :
    demoStore.rooms "ROOM01" = some demoRoom ∧
    (∃ room',
      (updateHexState demoStore "ROOM01" "0,0" demoDelta 3).2.rooms "ROOM01" = some room' ∧
      room'.hexState "0,0" = some (mergeCell (demoRoom.hexState "0,0") demoDelta 3) ∧
      (∀ h2, h2 ≠ "0,0" → room'.hexState h2 = demoRoom.hexState h2) ∧
      (∀ c, demoDelta.color = some c →
        (mergeCell (demoRoom.hexState "0,0") demoDelta 3).color = some c) ∧
      (demoDelta.color = none →
        (mergeCell (demoRoom.hexState "0,0") demoDelta 3).color =
          (demoRoom.hexState "0,0").bind Cell.color) ∧
      (∀ v, demoDelta.height = some v →
        (mergeCell (demoRoom.hexState "0,0") demoDelta 3).height = some v) ∧
      (demoDelta.height = none →
        (mergeCell (demoRoom.hexState "0,0") demoDelta 3).height =
          (demoRoom.hexState "0,0").bind Cell.height) ∧
      (∀ m, demoDelta.voxelModel = some m →
        (mergeCell (demoRoom.hexState "0,0") demoDelta 3).voxelModel = some m) ∧
      (demoDelta.voxelModel = none →
        (mergeCell (demoRoom.hexState "0,0") demoDelta 3).voxelModel =
          (demoRoom.hexState "0,0").bind Cell.voxelModel)) ∧
    ((mergeCell (some demoGreenCell) demoHeightDelta 7).color = some "#00ff00" ∧
      (mergeCell (some demoGreenCell) demoHeightDelta 7).height = some 2 ∧
      (mergeCell (some demoGreenCell) demoHeightDelta 7).voxelModel = none) :=
  ⟨rfl, updateHexState_shallow_merge demoStore "ROOM01" "0,0" demoRoom demoDelta 3 rfl⟩

/-- C2 counterexample: re-applying the identical color delta at a later clock
reading changes the stored cell state, because `updateHexState` stamps
`lastUpdated` with the current time on every write. -/
theorem updateHexState_not_idempotent :
    ((updateHexState (updateHexState demoStore "ROOM01" "0,0" demoDelta 0).2
        "ROOM01" "0,0" demoDelta 1).2.rooms "ROOM01").map (fun r => r.hexState "0,0")
      ≠ ((updateHexState demoStore "ROOM01" "0,0" demoDelta 0).2.rooms
        "ROOM01").map (fun r => r.hexState "0,0") := by
  decide

/-- C2 amended: applying the identical delta twice in succession equals
applying it once at the second timestamp, so color, height and voxelModel are
unchanged by the re-application and only the server-assigned lastUpdated
stamp moves; with equal timestamps the re-application changes nothing at all. -/
theorem updateHexState_reapply (s : Store) (roomCode hexId : String) (d : Delta)
    (t1 t2 : ℕ) :
    updateHexState (updateHexState s roomCode hexId d t1).2 roomCode hexId d t2
      = updateHexState s roomCode hexId d t2 := by
  cases hr : s.rooms roomCode with
  | none => simp [updateHexState, hr]
  | some room =>
    simp [updateHexState, hr, updF_same, updF_updF_same, mergeCell_stable]

/-- C3: joining with a room code not present in the store returns the
"Room not found" error and returns the store entirely unchanged. -/
theorem joinRoom_unknown_code (s : Store) (roomCode userId : String)
    (h : s.rooms roomCode = none) :
    joinRoom s roomCode userId = (.err "Room not found", s) := by
  simp [joinRoom, h]

/-- C3 witness at the empty store and a concrete unknown code. -/
theorem joinRoom_unknown_code_witness :
    emptyStore.rooms "ZZZZZZ" = none ∧
      joinRoom emptyStore "ZZZZZZ" "u1" = (.err "Room not found", emptyStore) :=
  ⟨rfl, joinRoom_unknown_code emptyStore "ZZZZZZ" "u1" rfl⟩

/-- Helper reading the member list of an optional room (an absent room has no
members). -/
def usersOf (r : Option Room) : List String :=
  match r with
  | none => []
  | some room => room.users

@[simp] theorem usersOf_none : usersOf none = [] := rfl

@[simp] theorem usersOf_some (room : Room) : usersOf (some room) = room.users := rfl

/-- Definition of the membership invariant of the store (spec section 3): every
room of the room table has a non-empty member list, and a user occurs in a
room's member list exactly when that room's code occurs in the user's entry of
the membership index. -/
def Invariant (s : Store) : Prop :=
  (∀ c room, s.rooms c = some room → room.users ≠ []) ∧
  (∀ c v, v ∈ usersOf (s.rooms c) ↔ c ∈ s.userRooms v)

/-- Definition of reachability by arbitrary operation sequences: the minted
room code of a `createRoom` step is arbitrary, as the code never checks it for
collisions against existing rooms. -/
inductive ReachableAny : Store → Prop where
  | empty : ReachableAny emptyStore
  | create (s : Store) (userId code : String) (now : ℕ) :
      ReachableAny s → ReachableAny (createRoom s userId code now).2
  | join (s : Store) (code userId : String) :
      ReachableAny s → ReachableAny (joinRoom s code userId).2
  | update (s : Store) (code hexId : String) (d : Delta) (now : ℕ) :
      ReachableAny s → ReachableAny (updateHexState s code hexId d now).2
  | remove (s : Store) (userId : String) :
      ReachableAny s → ReachableAny (removeUserFromRooms s userId).2

/-- Definition of reachability under fresh code minting: as `ReachableAny`, but
every `createRoom` step mints a code not already present in the room table. -/
inductive ReachableFresh : Store → Prop where
  | empty : ReachableFresh emptyStore
  | create (s : Store) (userId code : String) (now : ℕ) :
      ReachableFresh s → s.rooms code = none →
      ReachableFresh (createRoom s userId code now).2
  | join (s : Store) (code userId : String) :
      ReachableFresh s → ReachableFresh (joinRoom s code userId).2
  | update (s : Store) (code hexId : String) (d : Delta) (now : ℕ) :
      ReachableFresh s → ReachableFresh (updateHexState s code hexId d now).2
  | remove (s : Store) (userId : String) :
      ReachableFresh s → ReachableFresh (removeUserFromRooms s userId).2

theorem invariant_createRoom (s : Store) (u code : String) (now : ℕ)
    (hfresh : s.rooms code = none) (hinv : Invariant s) :
    Invariant (createRoom s u code now).2 := by
  obtain ⟨hne, hbi⟩ := hinv
  constructor
  · intro c room hc
    by_cases h : c = code
    · subst h
      rw [createRoom] at hc
      simp only [updF_same] at hc
      cases hc
      simp
    · rw [createRoom] at hc
      simp only [updF_ne _ _ _ h] at hc
      exact hne c room hc
  · intro c v
    by_cases hc : c = code
    · subst hc
      by_cases hv : v = u
      · subst hv
        simp [createRoom, updF_same]
      · have hnot : c ∉ s.userRooms v := by
          intro hmem
          have := (hbi c v).mpr hmem
          rw [hfresh] at this
          simp at this
        simp [createRoom, updF_same, updF_ne _ _ _ hv, hv, hnot]
    · by_cases hv : v = u
      · subst hv
        simp only [createRoom, updF_ne _ _ _ hc, updF_same, List.mem_append,
          List.mem_singleton, hc, or_false]
        exact hbi c v
      · simp only [createRoom, updF_ne _ _ _ hc, updF_ne _ _ _ hv]
        exact hbi c v

theorem invariant_joinRoom (s : Store) (code u : String) (hinv : Invariant s) :
    Invariant (joinRoom s code u).2 := by
  obtain ⟨hne, hbi⟩ := hinv
  cases hr : s.rooms code with
  | none => simpa [joinRoom, hr] using ⟨hne, hbi⟩
  | some room =>
    constructor
    · intro c room' hc
      by_cases h : c = code
      · subst h
        rw [joinRoom] at hc
        simp only [hr, updF_same] at hc
        cases hc
        simp
      · rw [joinRoom] at hc
        simp only [hr, updF_ne _ _ _ h] at hc
        exact hne c room' hc
    · intro c v
      by_cases hc : c = code
      · subst hc
        have hu := hbi c v
        rw [hr] at hu
        by_cases hv : v = u
        · subst hv
          simp [joinRoom, hr, updF_same]
        · simp only [joinRoom, hr, updF_same, updF_ne _ _ _ hv, usersOf_some,
            List.mem_append, List.mem_singleton, hv, or_false]
          exact hu
      · by_cases hv : v = u
        · subst hv
          simp only [joinRoom, hr, updF_ne _ _ _ hc, updF_same, List.mem_append,
            List.mem_singleton, hc, or_false]
          exact hbi c v
        · simp only [joinRoom, hr, updF_ne _ _ _ hc, updF_ne _ _ _ hv]
          exact hbi c v

theorem invariant_updateHexState (s : Store) (code hexId : String) (d : Delta)
    (now : ℕ) (hinv : Invariant s) :
    Invariant (updateHexState s code hexId d now).2 := by
  obtain ⟨hne, hbi⟩ := hinv
  cases hr : s.rooms code with
  | none => simpa [updateHexState, hr] using ⟨hne, hbi⟩
  | some room =>
    constructor
    · intro c room' hc
      by_cases h : c = code
      · subst h
        rw [updateHexState] at hc
        simp only [hr, updF_same] at hc
        cases hc
        exact hne c room hr
      · rw [updateHexState] at hc
        simp only [hr, updF_ne _ _ _ h] at hc
        exact hne c room' hc
    · intro c v
      have hu := hbi c v
      by_cases hc : c = code
      · subst hc
        rw [hr] at hu
        simpa [updateHexState, hr, updF_same] using hu
      · simpa [updateHexState, hr, updF_ne _ _ _ hc] using hu

/-- Helper describing the effect of one loop iteration of
`removeUserFromRooms` on the room table alone. -/
def roomsStep (u : String) (rs : String → Option Room) (code : String) :
    String → Option Room :=
  match rs code with
  | none => rs
  | some room =>
    let users := room.users.filter (fun id => id ≠ u)
    if users = [] then updF rs code none
    else updF rs code (some { room with users := users })

theorem roomsStep_none (u : String) (rs : String → Option Room) (code : String)
    (hr : rs code = none) : roomsStep u rs code = rs := by
  simp only [roomsStep, hr]

theorem roomsStep_some (u : String) (rs : String → Option Room) (code : String)
    (room : Room) (hr : rs code = some room) :
    roomsStep u rs code =
      if room.users.filter (fun id => id ≠ u) = [] then updF rs code none
      else updF rs code (some { room with users := room.users.filter (fun id => id ≠ u) }) := by
  simp only [roomsStep, hr]

theorem removeStep_snd (u : String) (acc : List String × (String → Option Room))
    (code : String) : (removeStep u acc code).2 = roomsStep u acc.2 code := by
  cases hr : acc.2 code with
  | none => rw [roomsStep_none u acc.2 code hr, removeStep, hr]
  | some room =>
    rw [roomsStep_some u acc.2 code room hr]
    simp only [removeStep, hr]
    by_cases h : room.users.filter (fun id => id ≠ u) = []
    · rw [if_pos h, if_pos h]
    · rw [if_neg h, if_neg h]

theorem foldl_removeStep_snd (u : String) (codes : List String) :
    ∀ acc : List String × (String → Option Room),
      (codes.foldl (removeStep u) acc).2 = codes.foldl (roomsStep u) acc.2 := by
  induction codes with
  | nil => intro acc; rfl
  | cons code rest ih =>
    intro acc
    rw [List.foldl_cons, List.foldl_cons, ih, removeStep_snd]

theorem roomsStep_other (u : String) (rs : String → Option Room)
    {code c : String} (h : c ≠ code) : roomsStep u rs code c = rs c := by
  cases hr : rs code with
  | none => rw [roomsStep_none u rs code hr]
  | some room =>
    rw [roomsStep_some u rs code room hr]
    by_cases hf : room.users.filter (fun id => id ≠ u) = []
    · rw [if_pos hf, updF_ne _ _ _ h]
    · rw [if_neg hf, updF_ne _ _ _ h]

theorem roomsStep_self_not_mem (u : String) (rs : String → Option Room)
    (code : String) : u ∉ usersOf (roomsStep u rs code code) := by
  cases hr : rs code with
  | none => rw [roomsStep_none u rs code hr, hr]; simp
  | some room =>
    rw [roomsStep_some u rs code room hr]
    by_cases hf : room.users.filter (fun id => id ≠ u) = []
    · rw [if_pos hf, updF_same]; simp
    · rw [if_neg hf, updF_same]
      simp [List.mem_filter]

theorem roomsStep_not_mem (u : String) (rs : String → Option Room)
    (code c : String) (h : u ∉ usersOf (rs c)) :
    u ∉ usersOf (roomsStep u rs code c) := by
  by_cases hc : c = code
  · subst hc; exact roomsStep_self_not_mem u rs c
  · rw [roomsStep_other u rs hc]; exact h

theorem roomsStep_mem_other (u v : String) (hv : v ≠ u)
    (rs : String → Option Room) (code c : String) :
    v ∈ usersOf (roomsStep u rs code c) ↔ v ∈ usersOf (rs c) := by
  by_cases hc : c = code
  · subst hc
    cases hr : rs c with
    | none => rw [roomsStep_none u rs c hr, hr]
    | some room =>
      rw [roomsStep_some u rs c room hr]
      by_cases hf : room.users.filter (fun id => id ≠ u) = []
      · rw [if_pos hf, updF_same]
        simp only [usersOf_none, usersOf_some, List.not_mem_nil, false_iff]
        intro hmem
        have hvf : v ∈ room.users.filter (fun id => id ≠ u) := by
          rw [List.mem_filter]
          exact ⟨hmem, by simpa using hv⟩
        rw [hf] at hvf
        simp at hvf
      · rw [if_neg hf, updF_same]
        simp [List.mem_filter, hv]
  · rw [roomsStep_other u rs hc]

theorem roomsStep_nonempty (u : String) (rs : String → Option Room)
    (code : String) (h : ∀ c room, rs c = some room → room.users ≠ []) :
    ∀ c room, roomsStep u rs code c = some room → room.users ≠ [] := by
  intro c room hc
  by_cases hcc : c = code
  · subst hcc
    cases hr : rs c with
    | none => rw [roomsStep_none u rs c hr] at hc; exact h c room hc
    | some room0 =>
      rw [roomsStep_some u rs c room0 hr] at hc
      by_cases hf : room0.users.filter (fun id => id ≠ u) = []
      · rw [if_pos hf, updF_same] at hc; cases hc
      · rw [if_neg hf, updF_same] at hc
        cases hc
        exact hf
  · rw [roomsStep_other u rs hcc] at hc
    exact h c room hc

theorem foldl_roomsStep_other (u : String) (codes : List String) :
    ∀ (rs : String → Option Room) (c : String), c ∉ codes →
      codes.foldl (roomsStep u) rs c = rs c := by
  induction codes with
  | nil => intro rs c _; rfl
  | cons code rest ih =>
    intro rs c hc
    have h1 : c ≠ code := fun h => hc (by rw [h]; exact List.mem_cons_self _ _)
    have h2 : c ∉ rest := fun h => hc (List.mem_cons_of_mem _ h)
    rw [List.foldl_cons, ih _ _ h2, roomsStep_other u rs h1]

theorem foldl_roomsStep_not_mem_of (u : String) (codes : List String) :
    ∀ (rs : String → Option Room) (c : String), u ∉ usersOf (rs c) →
      u ∉ usersOf (codes.foldl (roomsStep u) rs c) := by
  induction codes with
  | nil => intro rs c h; exact h
  | cons code rest ih =>
    intro rs c h
    exact ih _ _ (roomsStep_not_mem u rs code c h)

theorem foldl_roomsStep_not_mem (u : String) (codes : List String) :
    ∀ (rs : String → Option Room) (c : String), c ∈ codes →
      u ∉ usersOf (codes.foldl (roomsStep u) rs c) := by
  induction codes with
  | nil => intro rs c h; simp at h
  | cons code rest ih =>
    intro rs c hc
    rw [List.foldl_cons]
    rcases List.mem_cons.mp hc with h | h
    · subst h
      exact foldl_roomsStep_not_mem_of u rest _ c (roomsStep_self_not_mem u rs c)
    · exact ih _ c h

theorem foldl_roomsStep_mem_other (u v : String) (hv : v ≠ u)
    (codes : List String) :
    ∀ (rs : String → Option Room) (c : String),
      v ∈ usersOf (codes.foldl (roomsStep u) rs c) ↔ v ∈ usersOf (rs c) := by
  induction codes with
  | nil => intro rs c; rfl
  | cons code rest ih =>
    intro rs c
    rw [List.foldl_cons, ih, roomsStep_mem_other u v hv]

theorem foldl_roomsStep_nonempty (u : String) (codes : List String) :
    ∀ rs : String → Option Room,
      (∀ c room, rs c = some room → room.users ≠ []) →
      ∀ c room, codes.foldl (roomsStep u) rs c = some room → room.users ≠ [] := by
  induction codes with
  | nil => intro rs h; exact h
  | cons code rest ih =>
    intro rs h
    exact ih _ (roomsStep_nonempty u rs code h)

theorem invariant_removeUserFromRooms (s : Store) (u : String)
    (hinv : Invariant s) : Invariant (removeUserFromRooms s u).2 := by
  obtain ⟨hne, hbi⟩ := hinv
  rw [removeUserFromRooms]
  constructor
  · intro c room hc
    simp only [foldl_removeStep_snd] at hc
    exact foldl_roomsStep_nonempty u (s.userRooms u) s.rooms hne c room hc
  · intro c v
    simp only [foldl_removeStep_snd]
    by_cases hv : v = u
    · subst hv
      simp only [updF_same, List.not_mem_nil, iff_false]
      by_cases hc : c ∈ s.userRooms v
      · exact foldl_roomsStep_not_mem v (s.userRooms v) s.rooms c hc
      · rw [foldl_roomsStep_other v (s.userRooms v) s.rooms c hc]
        intro hmem
        exact hc ((hbi c v).mp hmem)
    · rw [updF_ne _ _ _ hv, foldl_roomsStep_mem_other u v hv]
      exact hbi c v

/-- Helper store produced by two createRoom calls that mint the same code. -/
def collideStore : Store :=
  (createRoom (createRoom emptyStore "u1" "AAAAAA" 0).2 "u2" "AAAAAA" 0).2

/-- C4 counterexample: the code never checks minted room codes for collisions,
so a second `createRoom` that mints an existing code overwrites the room while
the first host keeps a dangling membership entry, breaking the bidirectional
membership invariant on a reachable store. -/
theorem reachable_invariant_fails :
    ReachableAny collideStore ∧ ¬ Invariant collideStore := by
  constructor
  · exact .create _ _ _ _ (.create _ _ _ _ .empty)
  · intro hinv
    obtain ⟨-, hbi⟩ := hinv
    exact absurd ((hbi "AAAAAA" "u1").mpr (by decide)) (by decide)

/-- C4 amended: in every store reachable from the empty store by createRoom,
joinRoom, updateHexState and removeUserFromRooms steps in which every
`createRoom` mints a code not already in the room table, every room of the
room table has a non-empty member list and a user occurs in a room's member
list exactly when the room's code occurs in that user's membership-index
entry. -/
theorem reachableFresh_invariant (s : Store) (h : ReachableFresh s) :
    Invariant s := by
  induction h with
  | empty =>
    constructor
    · intro c room hc; cases hc
    · intro c v; simp [emptyStore]
  | create s userId code now _ hfresh ih =>
    exact invariant_createRoom s userId code now hfresh ih
  | join s code userId _ ih => exact invariant_joinRoom s code userId ih
  | update s code hexId d now _ ih =>
    exact invariant_updateHexState s code hexId d now ih
  | remove s userId _ ih => exact invariant_removeUserFromRooms s userId ih

/-- C4 witness: the invariant at a concrete reachable store, through a fresh
createRoom, a join, an update and a removal. -/
theorem reachableFresh_invariant_witness :
    Invariant (removeUserFromRooms (updateHexState (joinRoom
      (createRoom emptyStore "u1" "ROOM01" 0).2 "ROOM01" "u2").2
      "ROOM01" "0,0" demoDelta 1).2 "u1").2 :=
  reachableFresh_invariant _
    (.remove _ _ (.update _ _ _ _ _ (.join _ _ _ (.create _ _ _ _ .empty rfl))))

end RoomManager

namespace HexUtils

/-- Embedding of the inner loop of `getHexesInRadius` of HexUtils.js: for a
fixed column index `i` (so `q = i - radius`), the row offsets `r` run from
`max(-radius, -q-radius)` to `min(radius, -q+radius)` inclusive, and the cell
`(centerQ + q, centerR + r)` is pushed for each. -/
def hexRow (centerQ centerR : ℤ) (radius : ℕ) (i : ℕ) : List (ℤ × ℤ) :=
  let q : ℤ := (i : ℤ) - radius
  let r1 : ℤ := max (-(radius : ℤ)) (-q - radius)
  let r2 : ℤ := min (radius : ℤ) (-q + radius)
  (List.range (r2 - r1 + 1).toNat).map fun (k : ℕ) => (centerQ + q, centerR + (r1 + (k : ℤ)))

/-- Embedding of `getHexesInRadius` of HexUtils.js: the outer loop runs `q`
from `-radius` to `radius` inclusive, emitting the rows in order. -/
def getHexesInRadius (centerQ centerR : ℤ) (radius : ℕ) : List (ℤ × ℤ) :=
  (List.range (2 * radius + 1)).flatMap (hexRow centerQ centerR radius)

/-- Helper counting the cells of one column of the hexagonal region. -/
def hexRowLen (n i : ℕ) : ℕ := 2 * n + 1 - ((i : ℤ) - n).natAbs

theorem hexRow_length (cq cr : ℤ) (n i : ℕ) (hi : i < 2 * n + 1) :
    (hexRow cq cr n i).length = hexRowLen n i := by
  simp only [hexRow, List.length_map, List.length_range, hexRowLen]
  omega

theorem hexRow_fst {cq cr : ℤ} {n i : ℕ} {a : ℤ × ℤ} (ha : a ∈ hexRow cq cr n i) :
    a.1 = cq + ((i : ℤ) - n) := by
  simp only [hexRow, List.mem_map] at ha
  obtain ⟨k, -, hk⟩ := ha
  rw [← hk]

theorem hexRow_nodup (cq cr : ℤ) (n i : ℕ) : (hexRow cq cr n i).Nodup := by
  refine List.Nodup.map ?_ (List.nodup_range _)
  intro a b hab
  simp only [Prod.mk.injEq] at hab
  omega

theorem sum_map_list_range (g : ℕ → ℕ) (m : ℕ) :
    ((List.range m).map g).sum = ∑ i ∈ Finset.range m, g i := by
  induction m with
  | zero => rfl
  | succ m ih =>
    rw [List.range_succ, List.map_append, List.sum_append, Finset.sum_range_succ, ih]
    simp

theorem hexRowLen_sum (n : ℕ) :
    ∑ i ∈ Finset.range (2 * n + 1), hexRowLen n i = 3 * n ^ 2 + 3 * n + 1 := by
  induction n with
  | zero => decide
  | succ n ih =>
    have h2 : 2 * (n + 1) + 1 = (2 * n + 1) + 1 + 1 := by ring
    rw [h2, Finset.sum_range_succ, Finset.sum_range_succ']
    have hcong : ∀ i ∈ Finset.range (2 * n + 1),
        hexRowLen (n + 1) (i + 1) = hexRowLen n i + 2 := by
      intro i hi
      have hi' := Finset.mem_range.mp hi
      unfold hexRowLen
      omega
    rw [Finset.sum_congr rfl hcong, Finset.sum_add_distrib, Finset.sum_const,
      Finset.card_range, ih]
    have e1 : hexRowLen (n + 1) 0 = n + 2 := by unfold hexRowLen; omega
    have e2 : hexRowLen (n + 1) (2 * n + 1 + 1) = n + 2 := by unfold hexRowLen; omega
    rw [e1, e2, smul_eq_mul]
    ring

/-- C6: for every radius `n` and every center, `getHexesInRadius` produces a
list of exactly `3n² + 3n + 1` cells with no duplicates (the column offset
runs over `[-n, n]` and each column contributes its full admissible row
range, as fixed by the definition of `hexRow`). -/
theorem getHexesInRadius_count (centerQ centerR : ℤ) (n : ℕ) :
    (getHexesInRadius centerQ centerR n).length = 3 * n ^ 2 + 3 * n + 1 ∧
      (getHexesInRadius centerQ centerR n).Nodup := by
  constructor
  · rw [getHexesInRadius, List.length_flatMap, sum_map_list_range]
    have hstep : ∑ i ∈ Finset.range (2 * n + 1),
        (List.length ∘ hexRow centerQ centerR n) i
        = ∑ i ∈ Finset.range (2 * n + 1), hexRowLen n i := by
      refine Finset.sum_congr rfl ?_
      intro i hi
      exact hexRow_length centerQ centerR n i (Finset.mem_range.mp hi)
    rw [hstep, hexRowLen_sum]
  · rw [getHexesInRadius, List.nodup_flatMap]
    constructor
    · intro i _
      exact hexRow_nodup centerQ centerR n i
    · refine (List.pairwise_lt_range _).imp ?_
      intro i j hij a hai haj
      have h1 := hexRow_fst hai
      have h2 := hexRow_fst haj
      rw [h1] at h2
      omega

end HexUtils

namespace NoiseGenerator

/-- Embedding of one call of the closure returned by `mulberry32` of
NoiseGenerator.js, for a non-negative integer seed state.  The JavaScript
bitwise operators coerce their operands to 32 bits, which over integers is
reduction modulo `2^32`; `Math.imul` is multiplication modulo `2^32`, and the
final `>>> 0` is again reduction modulo `2^32`.  The first component is the
updated accumulator (`a += 0x6D2B79F5` is not truncated in the source), the
second the 32-bit numerator of the returned fraction `out / 2^32`. -/
def mulberryStep (a : ℕ) : ℕ × ℕ :=
  let a' := a + 0x6D2B79F5
  let t0 := a' % 2 ^ 32
  let t1 := (Nat.xor t0 (t0 >>> 15)) * (t0 ||| 1) % 2 ^ 32
  let t2 := Nat.xor t1 ((t1 + (Nat.xor t1 (t1 >>> 7)) * (t1 ||| 61) % 2 ^ 32) % 2 ^ 32)
  (a', Nat.xor t2 (t2 >>> 14) % 2 ^ 32)

/-- Embedding of the destructuring swap of the shuffle loop of
`generatePermutation`: both reads happen on the original array, then the two
positions are assigned. -/
def swapAt (p : List ℕ) (i j : ℕ) : List ℕ :=
  (p.set i (p.getD j 0)).set j (p.getD i 0)

/-- Embedding of the Fisher-Yates loop of `generatePermutation` of
NoiseGenerator.js, running the loop index from `i` down to 1: at index `i` it
draws `random()`, computes `j = Math.floor(random() * (i + 1))` (exact over
the integers because `out * (i + 1) < 2^53`), and swaps positions `i` and `j`. -/
def shuffle : List ℕ → ℕ → ℕ → List ℕ × ℕ
  | p, a, 0 => (p, a)
  | p, a, i + 1 =>
    let step := mulberryStep a
    let j := step.2 * (i + 2) / 2 ^ 32
    shuffle (swapAt p (i + 1) j) step.1 i

/-- Embedding of `generatePermutation` of NoiseGenerator.js: the array is
initialised with `0..255`, shuffled with the seeded generator from index 255
down to 1, and doubled so that indices up to 511 read the same values again. -/
def generatePermutation (seed : ℕ) : List ℕ :=
  let base := (shuffle (List.range 256) seed 255).1
  base ++ base

/-- Helper turning the permutation array into the lookup function used by
`noise` (all accesses of the source stay within the 512 entries). -/
def tableFun (p : List ℕ) : ℕ → ℕ := fun k => p.getD k 0

/-- Embedding of `fade` of NoiseGenerator.js. -/
def fade (t : ℚ) : ℚ := t * t * t * (t * (t * 6 - 15) + 10)

/-- Embedding of `lerp` of NoiseGenerator.js. -/
def lerp (a b t : ℚ) : ℚ := a + t * (b - a)

/-- Embedding of `gradient` of NoiseGenerator.js: `h = hash & 7` selects one
of eight signed combinations of the two offsets. -/
def gradient (hash : ℕ) (x y : ℚ) : ℚ :=
  let h := hash % 8
  let u := if h < 4 then x else y
  let v := if h < 4 then y else x
  (if h % 2 = 1 then -u else u) + (if h / 2 % 2 = 1 then -v else v)

/-- Embedding of `noise` of NoiseGenerator.js over an arbitrary lookup table:
`Math.floor(x) & 255` is modelled as `⌊x⌋ % 256` (two's complement masking of
an integer), the fractional offsets, fade weights, corner hashes, gradient dot
products and bilinear interpolation follow the source line by line. -/
def noise (p : ℕ → ℕ) (x y : ℚ) : ℚ :=
  let X := (⌊x⌋ % 256).toNat
  let Y := (⌊y⌋ % 256).toNat
  let xf := x - (⌊x⌋ : ℚ)
  let yf := y - (⌊y⌋ : ℚ)
  let u := fade xf
  let v := fade yf
  let A := p X + Y
  let B := p (X + 1) + Y
  let aa := p A
  let ab := p (A + 1)
  let ba := p B
  let bb := p (B + 1)
  let g1 := gradient (p aa) xf yf
  let g2 := gradient (p ba) (xf - 1) yf
  let g3 := gradient (p ab) xf (yf - 1)
  let g4 := gradient (p bb) (xf - 1) (yf - 1)
  let x1 := lerp g1 g2 u
  let x2 := lerp g3 g4 u
  lerp x1 x2 v

/-- Embedding of the accumulation loop of `fractalNoise`: octave `n+1` adds
`noise(x·freq, y·freq) · amp` to the total and `amp` to the maximum amplitude,
then recurses with doubled frequency and the amplitude scaled by the
persistence. -/
def fractalLoop (p : ℕ → ℕ) (x y persistence : ℚ) : ℕ → ℚ → ℚ → ℚ × ℚ
  | 0, _, _ => (0, 0)
  | n + 1, frequency, amplitude =>
    let rest := fractalLoop p x y persistence n (frequency * 2) (amplitude * persistence)
    (noise p (x * frequency) (y * frequency) * amplitude + rest.1, amplitude + rest.2)

/-- Helper modelling JavaScript division of IEEE numbers by an exact rational:
a zero divisor yields NaN or an infinity, which no rational represents, so the
result is `none`; otherwise the exact quotient. -/
def jsDiv (a b : ℚ) : Option ℚ := if b = 0 then none else some (a / b)

/-- Embedding of `fractalNoise` of NoiseGenerator.js: run the octave loop from
frequency 1 and amplitude 1, divide the total by the accumulated maximum
amplitude, and remap from `[-1, 1]` to `[0, 1]`. -/
def fractalNoise (p : ℕ → ℕ) (x y : ℚ) (octaves : ℕ) (persistence : ℚ) : Option ℚ :=
  let tm := fractalLoop p x y persistence octaves 1 1
  (jsDiv tm.1 tm.2).map fun q => (q + 1) / 2

theorem fade_nonneg {t : ℚ} (h0 : 0 ≤ t) : 0 ≤ fade t := by
  have h1 : 0 ≤ t * t * t := by positivity
  have h2 : (0 : ℚ) < t * (t * 6 - 15) + 10 := by nlinarith [sq_nonneg (4 * t - 5)]
  unfold fade
  exact mul_nonneg h1 h2.le

theorem fade_le_one {t : ℚ} (h0 : 0 ≤ t) (h1 : t ≤ 1) : fade t ≤ 1 := by
  have key : 1 - fade t = (1 - t) ^ 3 * (6 * t ^ 2 + 3 * t + 1) := by
    unfold fade; ring
  have hc : (0 : ℚ) ≤ (1 - t) ^ 3 * (6 * t ^ 2 + 3 * t + 1) :=
    mul_nonneg (pow_nonneg (by linarith) 3) (by positivity)
  linarith

theorem abs_gradient_le (hash : ℕ) (x y : ℚ) : |gradient hash x y| ≤ |x| + |y| := by
  have hx1 := neg_abs_le x
  have hx2 := le_abs_self x
  have hy1 := neg_abs_le y
  have hy2 := le_abs_self y
  simp only [gradient]
  split_ifs <;> rw [abs_le] <;> constructor <;> linarith

theorem phi_le_half {s : ℚ} (h0 : 0 ≤ s) (h1 : s ≤ 1) :
    s + fade s * (1 - 2 * s) ≤ 1 / 2 := by
  have key : 1 / 2 - (s + fade s * (1 - 2 * s))
      = (1 - 2 * s) ^ 2 * (3 * s ^ 2 * (s - 1) ^ 2 + s * (1 - s) + 1 / 2) := by
    unfold fade; ring
  have hQ : (0 : ℚ) ≤ 3 * s ^ 2 * (s - 1) ^ 2 + s * (1 - s) + 1 / 2 := by
    have hm := mul_nonneg h0 (sub_nonneg.2 h1)
    have hsq : (0 : ℚ) ≤ 3 * s ^ 2 * (s - 1) ^ 2 :=
      mul_nonneg (by positivity) (sq_nonneg _)
    linarith
  have hprod : (0 : ℚ) ≤ (1 - 2 * s) ^ 2 * (3 * s ^ 2 * (s - 1) ^ 2 + s * (1 - s) + 1 / 2) :=
    mul_nonneg (sq_nonneg _) hQ
  linarith

theorem abs_lerp_le (a b t : ℚ) (h0 : 0 ≤ t) (h1 : t ≤ 1) :
    |lerp a b t| ≤ (1 - t) * |a| + t * |b| := by
  have hrw : lerp a b t = (1 - t) * a + t * b := by unfold lerp; ring
  rw [hrw]
  calc |(1 - t) * a + t * b| ≤ |(1 - t) * a| + |t * b| := abs_add _ _
    _ = (1 - t) * |a| + t * |b| := by
        rw [abs_mul, abs_mul, abs_of_nonneg (by linarith), abs_of_nonneg h0]

theorem noise_core_bound (s t g1 g2 g3 g4 : ℚ)
    (hs0 : 0 ≤ s) (hs1 : s ≤ 1) (ht0 : 0 ≤ t) (ht1 : t ≤ 1)
    (hg1 : |g1| ≤ s + t) (hg2 : |g2| ≤ (1 - s) + t)
    (hg3 : |g3| ≤ s + (1 - t)) (hg4 : |g4| ≤ (1 - s) + (1 - t)) :
    |lerp (lerp g1 g2 (fade s)) (lerp g3 g4 (fade s)) (fade t)| ≤ 1 := by
  have hu0 := fade_nonneg hs0
  have hu1 := fade_le_one hs0 hs1
  have hv0 := fade_nonneg ht0
  have hv1 := fade_le_one ht0 ht1
  have hx1 : |lerp g1 g2 (fade s)| ≤ (1 - fade s) * (s + t) + fade s * ((1 - s) + t) := by
    refine (abs_lerp_le g1 g2 (fade s) hu0 hu1).trans ?_
    have m1 := mul_le_mul_of_nonneg_left hg1 (by linarith : (0 : ℚ) ≤ 1 - fade s)
    have m2 := mul_le_mul_of_nonneg_left hg2 hu0
    linarith
  have hx2 : |lerp g3 g4 (fade s)| ≤ (1 - fade s) * (s + (1 - t)) + fade s * ((1 - s) + (1 - t)) := by
    refine (abs_lerp_le g3 g4 (fade s) hu0 hu1).trans ?_
    have m1 := mul_le_mul_of_nonneg_left hg3 (by linarith : (0 : ℚ) ≤ 1 - fade s)
    have m2 := mul_le_mul_of_nonneg_left hg4 hu0
    linarith
  have hN : |lerp (lerp g1 g2 (fade s)) (lerp g3 g4 (fade s)) (fade t)|
      ≤ (1 - fade t) * ((1 - fade s) * (s + t) + fade s * ((1 - s) + t))
        + fade t * ((1 - fade s) * (s + (1 - t)) + fade s * ((1 - s) + (1 - t))) := by
    refine (abs_lerp_le _ _ (fade t) hv0 hv1).trans ?_
    have m1 := mul_le_mul_of_nonneg_left hx1 (by linarith : (0 : ℚ) ≤ 1 - fade t)
    have m2 := mul_le_mul_of_nonneg_left hx2 hv0
    linarith
  have hkey : (1 - fade t) * ((1 - fade s) * (s + t) + fade s * ((1 - s) + t))
        + fade t * ((1 - fade s) * (s + (1 - t)) + fade s * ((1 - s) + (1 - t)))
      = (s + fade s * (1 - 2 * s)) + (t + fade t * (1 - 2 * t)) := by ring
  have hps := phi_le_half hs0 hs1
  have hpt := phi_le_half ht0 ht1
  rw [hkey] at hN
  linarith

theorem abs_noise_le_one (p : ℕ → ℕ) (x y : ℚ) : |noise p x y| ≤ 1 := by
  have hs0 : (0 : ℚ) ≤ x - (⌊x⌋ : ℚ) := sub_nonneg.2 (Int.floor_le x)
  have hs1 : x - (⌊x⌋ : ℚ) ≤ 1 := by
    have := Int.lt_floor_add_one x
    linarith
  have ht0 : (0 : ℚ) ≤ y - (⌊y⌋ : ℚ) := sub_nonneg.2 (Int.floor_le y)
  have ht1 : y - (⌊y⌋ : ℚ) ≤ 1 := by
    have := Int.lt_floor_add_one y
    linarith
  simp only [noise]
  refine noise_core_bound _ _ _ _ _ _ hs0 hs1 ht0 ht1 ?_ ?_ ?_ ?_
  · refine (abs_gradient_le _ _ _).trans ?_
    rw [abs_of_nonneg hs0, abs_of_nonneg ht0]
  · refine (abs_gradient_le _ _ _).trans ?_
    rw [abs_sub_comm, abs_of_nonneg (by linarith), abs_of_nonneg ht0]
  · refine (abs_gradient_le _ _ _).trans ?_
    rw [abs_of_nonneg hs0, abs_sub_comm, abs_of_nonneg (by linarith)]
  · refine (abs_gradient_le _ _ _).trans ?_
    rw [abs_sub_comm, abs_of_nonneg (by linarith), abs_sub_comm, abs_of_nonneg (by linarith)]

theorem fractalLoop_bound (p : ℕ → ℕ) (x y pers : ℚ) (hp : 0 ≤ pers) :
    ∀ (n : ℕ) (freq amp : ℚ), 0 ≤ amp →
      |(fractalLoop p x y pers n freq amp).1| ≤ (fractalLoop p x y pers n freq amp).2
        ∧ 0 ≤ (fractalLoop p x y pers n freq amp).2 := by
  intro n
  induction n with
  | zero => intro freq amp _; simp [fractalLoop]
  | succ n ih =>
    intro freq amp ha
    obtain ⟨ih1, ih2⟩ := ih (freq * 2) (amp * pers) (mul_nonneg ha hp)
    simp only [fractalLoop]
    have hn : |noise p (x * freq) (y * freq) * amp| ≤ amp := by
      rw [abs_mul, abs_of_nonneg ha]
      calc |noise p (x * freq) (y * freq)| * amp ≤ 1 * amp :=
        mul_le_mul_of_nonneg_right (abs_noise_le_one p _ _) ha
      _ = amp := one_mul amp
    constructor
    · refine (abs_add _ _).trans ?_
      linarith
    · linarith

theorem fractalLoop_snd_succ (p : ℕ → ℕ) (x y pers freq amp : ℚ) (n : ℕ) :
    (fractalLoop p x y pers (n + 1) freq amp).2
      = amp + (fractalLoop p x y pers n (freq * 2) (amp * pers)).2 := rfl

/-- C7: over the table generated from any seed, the single-layer noise lies in
the closed interval `[-1, 1]`, and for every octave count from 1 to 6 with
persistence one half, `fractalNoise` returns a value in the closed interval
`[0, 1]`. -/
theorem fractalNoise_range (seed : ℕ) (x y : ℚ) (o : ℕ) (h1 : 1 ≤ o) (h6 : o ≤ 6) :
    (-1 ≤ noise (tableFun (generatePermutation seed)) x y ∧
      noise (tableFun (generatePermutation seed)) x y ≤ 1) ∧
    ∃ v, fractalNoise (tableFun (generatePermutation seed)) x y o (1 / 2) = some v ∧
      0 ≤ v ∧ v ≤ 1 := by
  set p := tableFun (generatePermutation seed)
  have hnoise := abs_noise_le_one p x y
  rw [abs_le] at hnoise
  refine ⟨hnoise, ?_⟩
  obtain ⟨n, rfl⟩ : ∃ n, o = n + 1 := ⟨o - 1, by omega⟩
  obtain ⟨hb1, hb2⟩ := fractalLoop_bound p x y (1 / 2) (by norm_num) (n + 1) 1 1 (by norm_num)
  have hge : (1 : ℚ) ≤ (fractalLoop p x y (1 / 2) (n + 1) 1 1).2 := by
    rw [fractalLoop_snd_succ]
    have := (fractalLoop_bound p x y (1 / 2) (by norm_num) n (1 * 2) (1 * (1 / 2))
      (by norm_num)).2
    linarith
  have hm : (fractalLoop p x y (1 / 2) (n + 1) 1 1).2 ≠ 0 := by linarith
  rw [abs_le] at hb1
  refine ⟨((fractalLoop p x y (1 / 2) (n + 1) 1 1).1
      / (fractalLoop p x y (1 / 2) (n + 1) 1 1).2 + 1) / 2, ?_, ?_, ?_⟩
  · rw [fractalNoise]
    simp only [jsDiv, if_neg hm, Option.map_some']
  · have hpos : (0 : ℚ) < (fractalLoop p x y (1 / 2) (n + 1) 1 1).2 := by linarith
    have hd : -1 ≤ (fractalLoop p x y (1 / 2) (n + 1) 1 1).1
        / (fractalLoop p x y (1 / 2) (n + 1) 1 1).2 := by
      rw [le_div_iff₀ hpos]
      linarith
    linarith
  · have hpos : (0 : ℚ) < (fractalLoop p x y (1 / 2) (n + 1) 1 1).2 := by linarith
    have hd : (fractalLoop p x y (1 / 2) (n + 1) 1 1).1
        / (fractalLoop p x y (1 / 2) (n + 1) 1 1).2 ≤ 1 := by
      rw [div_le_one hpos]
      linarith
    linarith

/-- C7 witness at seed 1, input (0, 0), one octave. -/
theorem fractalNoise_range_witness :
    (1 ≤ 1 ∧ 1 ≤ 6) ∧
    ((-1 ≤ noise (tableFun (generatePermutation 1)) 0 0 ∧
      noise (tableFun (generatePermutation 1)) 0 0 ≤ 1) ∧
    ∃ v, fractalNoise (tableFun (generatePermutation 1)) 0 0 1 (1 / 2) = some v ∧
      0 ≤ v ∧ v ≤ 1) :=
  ⟨⟨le_refl 1, by norm_num⟩, fractalNoise_range 1 0 0 1 (le_refl 1) (by norm_num)⟩

/-- C10: with an octave count of zero the loop accumulates a total of zero and
a maximum amplitude of zero, so the normalization divides zero by zero; the
JavaScript division yields NaN (modelled as `none`), not a value in `[0, 1]`,
and the guard `octaves ≥ 1` is indeed necessary for the `[0, 1]` range. -/
theorem fractalNoise_zero_octaves (p : ℕ → ℕ) (x y pers : ℚ) :
    (fractalLoop p x y pers 0 1 1).1 = 0 ∧ (fractalLoop p x y pers 0 1 1).2 = 0 ∧
      fractalNoise p x y 0 pers = none :=
  ⟨rfl, rfl, rfl⟩

theorem set_at_append {α : Type} (A : List α) (z w : α) (Z : List α) :
    (A ++ z :: Z).set A.length w = A ++ w :: Z := by
  induction A with
  | nil => rfl
  | cons a A ih =>
    show a :: (A ++ z :: Z).set A.length w = a :: (A ++ w :: Z)
    rw [ih]

theorem set_getD_self : ∀ (p : List ℕ) (i : ℕ), i < p.length → p.set i (p.getD i 0) = p := by
  intro p
  induction p with
  | nil => intro i h; simp at h
  | cons a l ih =>
    intro i h
    cases i with
    | zero => rfl
    | succ n =>
      show a :: l.set n (l.getD n 0) = a :: l
      rw [ih n (by simpa using h)]

theorem set_high_at_append (A B C : List ℕ) (x y w : ℕ) :
    (A ++ x :: (B ++ y :: C)).set (A.length + (B.length + 1)) w
      = A ++ x :: (B ++ w :: C) := by
  have h1 : A ++ x :: (B ++ y :: C) = (A ++ x :: B) ++ y :: C := by
    simp [List.append_assoc]
  have h2 : A.length + (B.length + 1) = (A ++ x :: B).length := by
    simp [List.length_append]
  rw [h1, h2, set_at_append]
  simp [List.append_assoc]

theorem swap_decomp_perm (A B C : List ℕ) (x y : ℕ) :
    (A ++ y :: (B ++ x :: C)).Perm (A ++ x :: (B ++ y :: C)) := by
  apply List.Perm.append_left
  exact ((List.Perm.cons y List.perm_middle).trans
    (List.Perm.swap x y (B ++ C))).trans (List.Perm.cons x List.perm_middle.symm)

theorem decomp_two (p : List ℕ) (i j : ℕ) (hi : i < p.length) (hj : j < p.length)
    (hij : i < j) :
    ∃ A B C, p = A ++ p.getD i 0 :: (B ++ p.getD j 0 :: C) ∧
      A.length = i ∧ B.length = j - i - 1 := by
  refine ⟨p.take i, (p.drop (i + 1)).take (j - i - 1), p.drop (j + 1), ?_, ?_, ?_⟩
  · have h1 : p.getD i 0 :: p.drop (i + 1) = p.drop i := by
      rw [List.getD_eq_getElem p 0 hi]
      exact List.getElem_cons_drop p i hi
    have h4 : (p.drop (i + 1)).drop (j - i - 1) = p.drop j := by
      rw [List.drop_drop]
      congr 1
      omega
    have h5 : p.getD j 0 :: p.drop (j + 1) = p.drop j := by
      rw [List.getD_eq_getElem p 0 hj]
      exact List.getElem_cons_drop p j hj
    have h3 : (p.drop (i + 1)).take (j - i - 1) ++ p.getD j 0 :: p.drop (j + 1)
        = p.drop (i + 1) := by
      rw [h5, ← h4]
      exact List.take_append_drop _ _
    calc p = p.take i ++ p.drop i := (List.take_append_drop i p).symm
      _ = p.take i ++ (p.getD i 0 :: p.drop (i + 1)) := by rw [h1]
      _ = p.take i ++ p.getD i 0 :: ((p.drop (i + 1)).take (j - i - 1)
            ++ p.getD j 0 :: p.drop (j + 1)) := by rw [h3]
  · rw [List.length_take]; omega
  · rw [List.length_take, List.length_drop]; omega

theorem swapAt_length (p : List ℕ) (i j : ℕ) : (swapAt p i j).length = p.length := by
  simp [swapAt]

theorem swapAt_perm (p : List ℕ) (i j : ℕ) (hi : i < p.length) (hj : j < p.length) :
    (swapAt p i j).Perm p := by
  rcases lt_trichotomy i j with hij | rfl | hij
  · obtain ⟨A, B, C, hp, hA, hB⟩ := decomp_two p i j hi hj hij
    rw [swapAt]
    set x := p.getD i 0 with hx
    set y := p.getD j 0 with hy
    have hiA : i = A.length := hA.symm
    have hjAB : j = A.length + (B.length + 1) := by omega
    rw [hp, hiA, hjAB, set_at_append, set_high_at_append]
    exact swap_decomp_perm A B C x y
  · rw [swapAt, set_getD_self p i hi, set_getD_self p i hi]
  · obtain ⟨A, B, C, hp, hA, hB⟩ := decomp_two p j i hj hi hij
    rw [swapAt]
    set u := p.getD j 0 with hu
    set v := p.getD i 0 with hv
    have hjA : j = A.length := hA.symm
    have hiAB : i = A.length + (B.length + 1) := by omega
    rw [hp, hjA, hiAB, set_high_at_append, set_at_append]
    exact swap_decomp_perm A B C u v

theorem mulberryStep_out_lt (a : ℕ) : (mulberryStep a).2 < 2 ^ 32 := by
  simp only [mulberryStep]
  exact Nat.mod_lt _ (by norm_num)

theorem shuffle_fst_perm : ∀ (i : ℕ) (p : List ℕ) (a : ℕ), i < p.length →
    ((shuffle p a i).1).Perm p := by
  intro i
  induction i with
  | zero => intro p a _; exact List.Perm.refl p
  | succ i ih =>
    intro p a h
    simp only [shuffle]
    have hout := mulberryStep_out_lt a
    have hj : (mulberryStep a).2 * (i + 2) / 2 ^ 32 < i + 2 := by
      rw [Nat.div_lt_iff_lt_mul (by norm_num : 0 < 2 ^ 32), Nat.mul_comm (i + 2)]
      exact Nat.mul_lt_mul_of_pos_right hout (by omega)
    have hjlen : (mulberryStep a).2 * (i + 2) / 2 ^ 32 < p.length := by omega
    have hperm := swapAt_perm p (i + 1) ((mulberryStep a).2 * (i + 2) / 2 ^ 32) h hjlen
    have hlen : (swapAt p (i + 1) ((mulberryStep a).2 * (i + 2) / 2 ^ 32)).length
        = p.length := swapAt_length _ _ _
    exact (ih _ (mulberryStep a).1 (by omega)).trans hperm

theorem generatePermutation_base_perm (seed : ℕ) :
    ((shuffle (List.range 256) seed 255).1).Perm (List.range 256) :=
  shuffle_fst_perm 255 (List.range 256) seed (by simp)

theorem generatePermutation_length (seed : ℕ) :
    (generatePermutation seed).length = 512 := by
  rw [generatePermutation, List.length_append]
  have := (generatePermutation_base_perm seed).length_eq
  simp only [List.length_range] at this
  omega

/-- C8: noise generation is deterministic in the seed: the permutation table
construction is a function of the seed alone, two generators built from the
same seed carry equal 512-entry tables whose first 256 entries are a
permutation of `0..255` duplicated in the upper half, and they return
identical `fractalNoise` values on every input and octave count. -/
theorem generatePermutation_deterministic (seed : ℕ) (p1 p2 : List ℕ)
    (h1 : p1 = generatePermutation seed) (h2 : p2 = generatePermutation seed) :
    p1 = p2 ∧ p1.length = 512 ∧ (p1.take 256).Perm (List.range 256) ∧
      (∀ i, i < 256 → p1.getD (i + 256) 0 = p1.getD i 0) ∧
      ∀ (x y : ℚ) (o : ℕ) (pers : ℚ),
        fractalNoise (tableFun p1) x y o pers = fractalNoise (tableFun p2) x y o pers := by
  have hbase := generatePermutation_base_perm seed
  have hblen : (shuffle (List.range 256) seed 255).1.length = 256 := by
    have := hbase.length_eq
    simpa using this
  refine ⟨h1.trans h2.symm, ?_, ?_, ?_, fun x y o pers => by rw [h1, h2]⟩
  · rw [h1]
    exact generatePermutation_length seed
  · rw [h1, generatePermutation, List.take_left' hblen]
    exact hbase
  · intro i hi
    rw [h1, generatePermutation]
    rw [List.getD_append_right _ _ _ _ (by omega), List.getD_append _ _ _ _ (by omega)]
    have hidx : i + 256 - (shuffle (List.range 256) seed 255).1.length = i := by omega
    rw [hidx]

/-- C8 witness at the concrete seed 42. -/
theorem generatePermutation_deterministic_witness :
    generatePermutation 42 = generatePermutation 42 ∧
      (generatePermutation 42).length = 512 ∧
      ((generatePermutation 42).take 256).Perm (List.range 256) ∧
      (∀ i, i < 256 → (generatePermutation 42).getD (i + 256) 0
        = (generatePermutation 42).getD i 0) ∧
      ∀ (x y : ℚ) (o : ℕ) (pers : ℚ),
        fractalNoise (tableFun (generatePermutation 42)) x y o pers
          = fractalNoise (tableFun (generatePermutation 42)) x y o pers :=
  generatePermutation_deterministic 42 _ _ rfl rfl

end NoiseGenerator

namespace RoomManager

/-- Helper mapping a base-36 digit value to the character printed by
JavaScript `Number.prototype.toString(36)`: `0-9` then lowercase `a-z`. -/
def digitChar36 (d : ℕ) : Char :=
  if d < 10 then Char.ofNat (48 + d) else Char.ofNat (97 + (d - 10))

/-- Helper modelling `Math.random().toString(36)` through the base-36
fractional expansion that JavaScript prints for the drawn value in `[0, 1)`:
the value 0 prints as "0", any other value prints as "0." followed by its
fraction digits (finitely many, without trailing zeros). -/
def jsToString36 (fracDigits : List ℕ) : String :=
  if fracDigits.isEmpty then "0"
  else "0." ++ String.mk (fracDigits.map digitChar36)

/-- Embedding of `generateRoomCode` of RoomManager.js:
`Math.random().toString(36).substring(2, 8).toUpperCase()`, the drawn random
value being represented by its printed base-36 fraction digits.
`substring(2, 8)` keeps the code units from index 2 up to 8 (dropping the
leading "0."), and `toUpperCase` maps every character to upper case; both are
taken on the character list of the printed string. -/
def generateRoomCode (fracDigits : List ℕ) : String :=
  String.mk ((((jsToString36 fracDigits).data.drop 2).take 6).map Char.toUpper)

/-- C5: the room code is not always 6 characters long.  For the random value
one half, whose base-36 string is "0.i", the code is the single character "I";
for the random value 0, whose string is "0", the code is empty.  A value with
at least six fraction digits does produce six characters, which is why the
slip stays latent. -/
theorem generateRoomCode_short :
    generateRoomCode [18] = "I" ∧ (generateRoomCode [18]).length = 1 ∧
      ¬((generateRoomCode [18]).length = 6) ∧
      generateRoomCode [] = "" ∧
      (generateRoomCode [1, 2, 3, 4, 5, 6, 7]).length = 6 := by
  decide

end RoomManager

namespace HexGrid

/-- Definition of the reconciliation-relevant state of one hex mesh of the
client grid: the stored custom color, the extruded height and the attached
voxel model data (all kept in `userData` and the voxel model registry of the
HexGrid class). -/
structure HexMesh where
  customColor : Option String
  height : Option ℚ
  voxelModel : Option VoxelModel
deriving DecidableEq

/-- Embedding of `updateHexState` of the client HexGrid class: a missing mesh
returns at once; a present color field stores the new color; a present height
field stores the new height; a present voxelModel field replaces the attached
model and the method completes.  In every remaining case control reaches the
branch `else if (heightChanged)` and the identifier `heightChanged` is
declared nowhere in scope, so JavaScript throws a ReferenceError, modelled as
the `Except.error` value.  Rendering side effects (material updates, mesh
extrusion, model spawning) are external to the modelled mirror state. -/
def updateHexState (grid : String → Option HexMesh) (hexId : String)
    (state : Delta) : Except String (String → Option HexMesh) :=
  match grid hexId with
  | none => .ok grid
  | some hex =>
    let hex1 := match state.color with
      | some c => { hex with customColor := some c }
      | none => hex
    let hex2 := match state.height with
      | some h => { hex1 with height := some h }
      | none => hex1
    match state.voxelModel with
    | some m => .ok (RoomManager.updF grid hexId (some { hex2 with voxelModel := some m }))
    | none => .error "ReferenceError: heightChanged is not defined"

/-- Helper sample mesh and mirror containing exactly the hex "0,0". -/
def demoMesh : HexMesh := { customColor := none, height := none, voxelModel := none }

/-- Helper sample client mirror containing exactly the hex "0,0". -/
def demoGrid : String → Option HexMesh :=
  RoomManager.updF (fun _ => none) "0,0" (some demoMesh)

/-- Helper sample voxel model payload. -/
def demoVoxel : VoxelModel :=
  { type := "cube", scale := 3 / 2, rotation := (0, 0, 0), animate := true,
    hoverRange := 1 / 5, hoverSpeed := 1, rotateSpeed := 1 / 2 }

/-- C9: the client per-cell update does not accept every field combination.
Any delta without a voxelModel field (a pure color update, a pure height
update, or the empty delta) applied to a present hex reaches the undeclared
identifier `heightChanged` and throws a ReferenceError instead of completing;
a delta carrying a voxelModel does complete. -/
theorem updateHexState_reference_error :
    updateHexState demoGrid "0,0" { color := some "#ff0000" }
        = .error "ReferenceError: heightChanged is not defined" ∧
      updateHexState demoGrid "0,0" { height := some 2 }
        = .error "ReferenceError: heightChanged is not defined" ∧
      updateHexState demoGrid "0,0" ({} : Delta)
        = .error "ReferenceError: heightChanged is not defined" ∧
      updateHexState demoGrid "0,0" { voxelModel := some demoVoxel }
        = .ok (RoomManager.updF demoGrid "0,0"
            (some { demoMesh with voxelModel := some demoVoxel })) :=
  ⟨rfl, rfl, rfl, rfl⟩

end HexGrid
